import Mathlib

set_option maxHeartbeats 1000000

namespace EsmFold

/-!
Shallow embedding of the in-scope components of the esmfold-gaudi2-examples
repository: the FASTA reader (`load_fasta_entries` in
`src/fold_gpu/array/run_fold_parallel.py`), the artifact matcher and collector
(`src/fold_gaudi/array/collector.py`), and the shared append log
(`write_to_shared_file` in `src/fold_gpu/array/run_fold_parallel.py`).
Strings are modelled with Lean `String`; character-level operations are
implemented structurally over `String.data` so that every definition is
kernel-computable.
-/

/-! ## FASTA reader -/

/-- Python `str.strip()` whitespace set restricted to the ASCII whitespace
characters (space, tab, newline, carriage return, vertical tab, form feed). -/
def pyWhitespace (c : Char) : Bool :=
  c = ' ' || c = '\t' || c = '\n' || c = '\r' || c = Char.ofNat 11 || c = Char.ofNat 12

/-- Python `line.strip()`: remove leading and trailing whitespace. -/
def pyStrip (s : String) : String :=
  String.mk (((s.data.dropWhile pyWhitespace).reverse.dropWhile pyWhitespace).reverse)

/-- Python `s.startswith(c)` for a single-character marker. -/
def startsWithChar (s : String) (c : Char) : Bool :=
  match s.data with
  | [] => false
  | d :: _ => d = c

/-- Python `line[1:]`. -/
def dropFirstChar (s : String) : String := String.mk s.data.tail

/-- Python `"".join(chunks)`. -/
def joinAll (xs : List String) : String := String.mk (xs.map String.data).flatten

/-- Python `seq.replace(" ", "")`: removing every occurrence of the
one-character pattern `" "` is exactly filtering out the space character. -/
def removeSpaces (s : String) : String := String.mk (s.data.filter (fun c => c ≠ ' '))

/-- Parser state of `load_fasta_entries`: the pending record
(`current_desc`, `current_chunks`) and the accumulated output lists. -/
structure FastaState where
  currentDesc : Option String
  currentChunks : List String
  descs : List String
  seqs : List String
deriving DecidableEq

/-- The flush step of `load_fasta_entries`: if a record is pending, append its
description and its concatenated, space-stripped sequence to the output. -/
def flushRecord (st : FastaState) : FastaState :=
  match st.currentDesc with
  | none => st
  | some d =>
      { st with descs := st.descs ++ [d],
                seqs := st.seqs ++ [removeSpaces (joinAll st.currentChunks)] }

/-- One loop iteration of `load_fasta_entries` over a raw input line:
strip, skip blank/comment lines, flush-and-restart on a `>` header,
otherwise accumulate a sequence chunk. -/
def processLine (st : FastaState) (raw : String) : FastaState :=
  let line := pyStrip raw
  if line.data.isEmpty || startsWithChar line ';' || startsWithChar line '#' then st
  else if startsWithChar line '>' then
    let st' := flushRecord st
    { st' with currentDesc := some (pyStrip (dropFirstChar line)), currentChunks := [] }
  else { st with currentChunks := st.currentChunks ++ [line] }

/-- `load_fasta_entries` body on the list of raw lines of the file
(universal-newline splitting is modelled by taking the lines as given).
Mirrors the Python return order `(seqs_list, descs_list)`. -/
def load_fasta_entries (lines : List String) : List String × List String :=
  let st := flushRecord (lines.foldl processLine ⟨none, [], [], []⟩)
  (st.seqs, st.descs)

/-- Classification of a raw line, mirroring the branch conditions of
`load_fasta_entries` exactly. -/
inductive LineKind where
  | skip : LineKind
  | header (d : String) : LineKind
  | chunk (c : String) : LineKind
deriving DecidableEq

/-- The branch taken by `processLine` on a raw line. -/
def lineKind (raw : String) : LineKind :=
  let line := pyStrip raw
  if line.data.isEmpty || startsWithChar line ';' || startsWithChar line '#' then .skip
  else if startsWithChar line '>' then .header (pyStrip (dropFirstChar line))
  else .chunk line

/-- Reference segmentation: records following a pending header `d` with
already-collected chunks `cs`. -/
def recsFrom (d : String) (cs : List String) : List String → List (String × List String)
  | [] => [(d, cs)]
  | l :: ls =>
      match lineKind l with
      | .skip => recsFrom d cs ls
      | .chunk c => recsFrom d (cs ++ [c]) ls
      | .header d2 => (d, cs) :: recsFrom d2 [] ls

/-- Reference segmentation of a FASTA file into records: each record is a
header description paired with the list of its (stripped) sequence chunk
lines; material before the first header is dropped. -/
def fastaRecords : List String → List (String × List String)
  | [] => []
  | l :: ls =>
      match lineKind l with
      | .header d => recsFrom d [] ls
      | _ => fastaRecords ls

theorem processLine_kind (st : FastaState) (raw : String) :
    processLine st raw =
      match lineKind raw with
      | .skip => st
      | .header d =>
          { flushRecord st with currentDesc := some d, currentChunks := [] }
      | .chunk c => { st with currentChunks := st.currentChunks ++ [c] } := by
  unfold processLine lineKind
  by_cases h1 : ((pyStrip raw).data.isEmpty || startsWithChar (pyStrip raw) ';'
      || startsWithChar (pyStrip raw) '#') = true
  · simp [h1]
  · simp only [Bool.not_eq_true] at h1
    by_cases h2 : startsWithChar (pyStrip raw) '>' = true
    · simp [h1, h2]
    · simp only [Bool.not_eq_true] at h2
      simp [h1, h2]

theorem foldProcess_some (ls : List String) :
    ∀ d cs descs seqs,
      (flushRecord (ls.foldl processLine ⟨some d, cs, descs, seqs⟩)).descs
          = descs ++ (recsFrom d cs ls).map Prod.fst ∧
      (flushRecord (ls.foldl processLine ⟨some d, cs, descs, seqs⟩)).seqs
          = seqs ++ (recsFrom d cs ls).map (fun r => removeSpaces (joinAll r.2)) := by
  induction ls with
  | nil =>
      intro d cs descs seqs
      simp [flushRecord, recsFrom]
  | cons l ls ih =>
      intro d cs descs seqs
      rw [List.foldl_cons, processLine_kind]
      cases hk : lineKind l with
      | skip => simpa [recsFrom, hk] using ih d cs descs seqs
      | chunk c => simpa [recsFrom, hk] using ih d (cs ++ [c]) descs seqs
      | header d2 =>
          have := ih d2 [] (descs ++ [d]) (seqs ++ [removeSpaces (joinAll cs)])
          simp only [flushRecord] at this ⊢
          simp [recsFrom, hk, this]

theorem foldProcess_none (ls : List String) :
    ∀ cs descs seqs,
      (flushRecord (ls.foldl processLine ⟨none, cs, descs, seqs⟩)).descs
          = descs ++ (fastaRecords ls).map Prod.fst ∧
      (flushRecord (ls.foldl processLine ⟨none, cs, descs, seqs⟩)).seqs
          = seqs ++ (fastaRecords ls).map (fun r => removeSpaces (joinAll r.2)) := by
  induction ls with
  | nil =>
      intro cs descs seqs
      simp [flushRecord, fastaRecords]
  | cons l ls ih =>
      intro cs descs seqs
      rw [List.foldl_cons, processLine_kind]
      cases hk : lineKind l with
      | skip => simpa [fastaRecords, hk] using ih cs descs seqs
      | chunk c => simpa [fastaRecords, hk] using ih (cs ++ [c]) descs seqs
      | header d =>
          have := foldProcess_some ls d [] descs seqs
          simp only [flushRecord] at this ⊢
          simp [fastaRecords, hk, this]

/-- Master correspondence: the state-machine parser produces exactly the
reference record segmentation, in order. -/
theorem load_fasta_entries_eq (lines : List String) :
    load_fasta_entries lines =
      ((fastaRecords lines).map (fun r => removeSpaces (joinAll r.2)),
       (fastaRecords lines).map Prod.fst) := by
  have h := foldProcess_none lines [] [] []
  unfold load_fasta_entries
  simp only [List.nil_append] at h
  exact Prod.ext (by simp [h.2]) (by simp [h.1])

/-- A raw input line counts as a header when its stripped form begins with
the `>` marker (the reader strips each line before classifying it). -/
def isHeaderLine (raw : String) : Bool := startsWithChar (pyStrip raw) '>'

/-- The description a header line contributes: the remainder after the `>`
marker, stripped. -/
def headerDesc (raw : String) : String := pyStrip (dropFirstChar (pyStrip raw))

theorem lineKind_eq_header (raw : String) (d : String) :
    lineKind raw = .header d ↔ (isHeaderLine raw = true ∧ d = headerDesc raw) := by
  unfold lineKind isHeaderLine headerDesc
  cases hm : (pyStrip raw).data with
  | nil => simp [startsWithChar, hm, List.isEmpty]
  | cons a t =>
      by_cases ha : a = '>'
      · subst ha
        simp [startsWithChar, hm, List.isEmpty, eq_comm]
      · by_cases hs : a = ';'
        · subst hs; simp [startsWithChar, hm]
        · by_cases hh : a = '#'
          · subst hh; simp [startsWithChar, hm]
          · simp [startsWithChar, hm, List.isEmpty, ha, hs, hh]

theorem lineKind_not_header (raw : String)
    (h : ∀ d, lineKind raw ≠ .header d) : isHeaderLine raw = false := by
  by_contra hc
  simp only [Bool.not_eq_false] at hc
  exact h (headerDesc raw) ((lineKind_eq_header raw (headerDesc raw)).mpr ⟨hc, rfl⟩)

theorem recsFrom_map_fst (ls : List String) :
    ∀ d cs, (recsFrom d cs ls).map Prod.fst
        = d :: (ls.filter isHeaderLine).map headerDesc := by
  induction ls with
  | nil => intro d cs; simp [recsFrom]
  | cons l ls ih =>
      intro d cs
      cases hk : lineKind l with
      | skip =>
          have hnh : isHeaderLine l = false := lineKind_not_header l (by simp [hk])
          simp [recsFrom, hk, hnh, ih]
      | chunk c =>
          have hnh : isHeaderLine l = false := lineKind_not_header l (by simp [hk])
          simp [recsFrom, hk, hnh, ih]
      | header d2 =>
          obtain ⟨hh, hd⟩ := (lineKind_eq_header l d2).mp hk
          simp [recsFrom, hk, hh, ih, ← hd]

theorem fastaRecords_map_fst (ls : List String) :
    (fastaRecords ls).map Prod.fst = (ls.filter isHeaderLine).map headerDesc := by
  induction ls with
  | nil => simp [fastaRecords]
  | cons l ls ih =>
      cases hk : lineKind l with
      | skip =>
          have hnh : isHeaderLine l = false := lineKind_not_header l (by simp [hk])
          simp [fastaRecords, hk, hnh, ih]
      | chunk c =>
          have hnh : isHeaderLine l = false := lineKind_not_header l (by simp [hk])
          simp [fastaRecords, hk, hnh, ih]
      | header d =>
          obtain ⟨hh, hd⟩ := (lineKind_eq_header l d).mp hk
          simp [fastaRecords, hk, hh, recsFrom_map_fst, ← hd]

/-- C1: for every input accepted by the FASTA reader, the number of
descriptions equals the number of sequences, both equal the number of header
lines (lines whose stripped form begins with `>`), and the descriptions
appear in exactly the order of their header lines in the input. -/
theorem fasta_reader_counts_and_order (lines : List String) :
    (load_fasta_entries lines).2.length = (load_fasta_entries lines).1.length ∧
    (load_fasta_entries lines).2.length = (lines.filter isHeaderLine).length ∧
    (load_fasta_entries lines).2 = (lines.filter isHeaderLine).map headerDesc := by
  rw [load_fasta_entries_eq]
  refine ⟨by simp, ?_, ?_⟩
  · rw [fastaRecords_map_fst]; simp
  · exact fastaRecords_map_fst lines

/-- C2 (amended): each returned sequence equals the concatenation of its
record's stripped non-header, non-comment, non-blank lines with the internal
SPACE characters (U+0020) removed; other internal whitespace such as a tab
is preserved. -/
theorem fasta_sequences_space_stripped (lines : List String) :
    (load_fasta_entries lines).1
        = (fastaRecords lines).map (fun r => removeSpaces (joinAll r.2)) := by
  rw [load_fasta_entries_eq]

/-- Modelled from the claim's words for C2: concatenation with ALL internal
whitespace characters removed. -/
def removeAllWhitespace (s : String) : String :=
  String.mk (s.data.filter (fun c => !pyWhitespace c))

/-- C2 counterexample: on the record `>a` with the single sequence line
`MK\tV`, the reader returns `MK\tV` (the internal tab survives, because the
code only removes the space character), which differs from the
whitespace-removed concatenation `MKV` the claim requires. -/
theorem fasta_tab_survives :
    (load_fasta_entries [">a", "MK\tV"]).1 = ["MK\tV"] ∧
    removeAllWhitespace (joinAll ["MK\tV"]) = "MKV" ∧
    ("MK\tV" : String) ≠ "MKV" := by decide

/-- `load_fasta_entries` including its existence check: the filesystem is a
partial map from paths to file line lists; a missing path raises
`FileNotFoundError`. -/
def load_fasta_entries_fs (fs : String → Option (List String)) (path : String) :
    Except String (List String × List String) :=
  match fs path with
  | none => .error "FASTA file not found"
  | some lines => .ok (load_fasta_entries lines)

/-- C3: the reader fails with the Not-Found error exactly when the path does
not reference an existing file; otherwise it returns the two equal-length
ordered lists, and on the input lines `>a / MKV / >b / LLT` the descriptions
are `a, b` and the sequences are `MKV, LLT`. -/
theorem load_fasta_not_found_and_scenario
    (fs : String → Option (List String)) (path : String) :
    ((load_fasta_entries_fs fs path).isOk = true ↔ (fs path).isSome = true) ∧
    (∀ ls, fs path = some ls →
        load_fasta_entries_fs fs path = .ok (load_fasta_entries ls) ∧
        (load_fasta_entries ls).1.length = (load_fasta_entries ls).2.length) ∧
    load_fasta_entries_fs (fun _ => some [">a", "MKV", ">b", "LLT"]) path
        = .ok (["MKV", "LLT"], ["a", "b"]) := by
  refine ⟨?_, ?_, ?_⟩
  · unfold load_fasta_entries_fs
    cases h : fs path <;> simp [Except.isOk, Except.toBool]
  · intro ls hls
    unfold load_fasta_entries_fs
    rw [hls]
    refine ⟨rfl, ?_⟩
    rw [load_fasta_entries_eq]
    simp
  · rfl

/-- Witness for C3 at a concrete filesystem and path. -/
theorem load_fasta_not_found_witness :
    ((fun _ : String => some [">a", "MKV", ">b", "LLT"]) "in.faa"
        = some [">a", "MKV", ">b", "LLT"]) ∧
    load_fasta_entries_fs (fun _ => some [">a", "MKV", ">b", "LLT"]) "in.faa"
        = .ok (load_fasta_entries [">a", "MKV", ">b", "LLT"]) :=
  ⟨rfl, ((load_fasta_not_found_and_scenario
      (fun _ => some [">a", "MKV", ">b", "LLT"]) "in.faa").2.1 _ rfl).1⟩

/-! ## Score tables and per-entry processing (collector.py) -/

/-- An uninterpreted table cell: either the missing-value sentinel (`np.nan`,
used as the `default` of `_safe_first`) or an opaque value read from a CSV. -/
inductive Val where
  | na : Val
  | str (s : String) : Val
deriving DecidableEq

/-- A pandas DataFrame, modelled column-oriented: an association list from
column name to the column's cells. -/
abbrev Df : Type := List (String × List Val)

/-- Number of rows: the length of the first column (pandas columns all share
one index). -/
def Df.nrows (df : Df) : Nat :=
  match df with
  | [] => 0
  | (_, vs) :: _ => vs.length

/-- pandas `df.empty`: true when either axis has length zero. -/
def Df.isEmpty (df : Df) : Bool :=
  match df with
  | [] => true
  | (_, vs) :: _ => vs.isEmpty

/-- Python `column in df`: membership in the column index. -/
def Df.containsCol (df : Df) (c : String) : Bool := (df.lookup c).isSome

/-- Well-formedness of the pandas model: every column has `nrows` cells. -/
def Df.wf (df : Df) : Prop := ∀ pr ∈ df, (pr.2 : List Val).length = Df.nrows df

instance (df : Df) : Decidable (Df.wf df) := List.decidableBAll _ df

/-- `_safe_first` from collector.py: the first row's value of `column` when
the column exists and the table is non-empty, otherwise the default
(`np.nan`).  The inner `match` arm for an absent first cell is unreachable on
well-formed tables. -/
def safe_first (df : Df) (column : String) (default : Val := .na) : Val :=
  if df.containsCol column && !df.isEmpty then
    match df.lookup column with
    | some (v :: _) => v
    | _ => default
  else default

theorem lookup_mem {α β : Type} [BEq α] [LawfulBEq α]
    (l : List (α × β)) (a : α) (b : β) (h : l.lookup a = some b) : (a, b) ∈ l := by
  induction l with
  | nil => simp [List.lookup] at h
  | cons p l ih =>
      obtain ⟨k, v⟩ := p
      by_cases hk : a == k
      · simp only [List.lookup, hk, cond_true] at h
        cases h
        have : a = k := by simpa using hk
        subst this
        exact List.mem_cons_self _ _
      · simp only [List.lookup, hk, cond_false] at h
        exact List.mem_cons_of_mem _ (ih h)

/-- C6: on every well-formed table, `_safe_first` returns the first cell of
the named column when that column exists and the table is non-empty, and the
missing-value sentinel in every other case; it is a total function (never
raises). -/
theorem safe_first_spec (df : Df) (c : String) (h : Df.wf df) :
    safe_first df c =
      match df.lookup c with
      | some (v :: _) => v
      | _ => Val.na := by
  cases hl : df.lookup c with
  | none => simp [safe_first, Df.containsCol, hl]
  | some vs =>
      cases vs with
      | nil =>
          have hmem : (c, ([] : List Val)) ∈ df := lookup_mem df c [] hl
          have hz : Df.nrows df = 0 := by
            have := h _ hmem
            simpa using this.symm
          have hemp : df.isEmpty = true := by
            cases df with
            | nil => rfl
            | cons p l =>
                obtain ⟨k, v⟩ := p
                simp only [Df.nrows] at hz
                simp [Df.isEmpty, List.isEmpty_iff, List.length_eq_zero.mp hz]
          simp [safe_first, hemp, hl]
      | cons v vs =>
          have hmem : (c, v :: vs) ∈ df := lookup_mem df c (v :: vs) hl
          have hpos : 0 < Df.nrows df := by
            have := h _ hmem
            simp at this
            omega
          have hemp : df.isEmpty = false := by
            cases df with
            | nil => simp [Df.nrows] at hpos
            | cons p l =>
                obtain ⟨k, w⟩ := p
                simp only [Df.nrows] at hpos
                simp [Df.isEmpty, List.isEmpty_iff]
                exact List.ne_nil_of_length_pos hpos
          simp [safe_first, Df.containsCol, hemp, hl]

/-- Witness for C6 on a concrete one-row table. -/
theorem safe_first_spec_witness :
    Df.wf [("pTM_Score", [Val.str "0.71"]), ("pLDDT_Score", [Val.str "88.2"])] ∧
    safe_first [("pTM_Score", [Val.str "0.71"]), ("pLDDT_Score", [Val.str "88.2"])]
        "pTM_Score" = Val.str "0.71" :=
  ⟨by decide,
   safe_first_spec [("pTM_Score", [Val.str "0.71"]), ("pLDDT_Score", [Val.str "88.2"])]
      "pTM_Score" (by decide)⟩

/-- One collected Result Row, mirroring the dict built by `_process_entry`
(keys Description, Sequence, pTM_Score, pLDDT_Score, PDB, FAA_File). -/
structure ResultRow where
  description : String
  sequence : String
  pTM_Score : Val
  pLDDT_Score : Val
  pdb : Option String
  faa_file : String
deriving DecidableEq

/-- `_process_entry` from collector.py.  File reading is abstracted by the
oracles `readPdb` (text of a structure file) and `readCsv` (parsed score
table); `pd.DataFrame()` on the out-of-range path is the empty table. -/
def process_entry (readPdb : String → String) (readCsv : String → Df)
    (j : Nat) (entry description faa_file : String)
    (matching_pdb_files matching_csv_files : List String) : ResultRow :=
  let pdb_str : Option String :=
    if h : j < matching_pdb_files.length then
      some (readPdb (matching_pdb_files.get ⟨j, h⟩))
    else none
  let df_analysis : Df :=
    if h : j < matching_csv_files.length then
      readCsv (matching_csv_files.get ⟨j, h⟩)
    else []
  { description := description
    sequence := entry
    pTM_Score := safe_first df_analysis "pTM_Score"
    pLDDT_Score := safe_first df_analysis "pLDDT_Score"
    pdb := pdb_str
    faa_file := faa_file }

/-- C4: whenever the entry index is at least the length of the matched
structure-file list, the Result Row records the structure text as absent;
whenever it is at least the length of the matched score-file list, both
scores are the missing-value sentinel.  `process_entry` is a total function,
so no exception is possible on this path. -/
theorem process_entry_out_of_range (readPdb : String → String) (readCsv : String → Df)
    (j : Nat) (entry description faa_file : String)
    (pdbs csvs : List String) :
    (pdbs.length ≤ j →
        (process_entry readPdb readCsv j entry description faa_file pdbs csvs).pdb
          = none) ∧
    (csvs.length ≤ j →
        (process_entry readPdb readCsv j entry description faa_file pdbs csvs).pTM_Score
            = Val.na ∧
        (process_entry readPdb readCsv j entry description faa_file pdbs csvs).pLDDT_Score
            = Val.na) := by
  constructor
  · intro hp
    have : ¬ j < pdbs.length := by omega
    simp [process_entry, this]
  · intro hc
    have : ¬ j < csvs.length := by omega
    constructor <;> simp [process_entry, this, safe_first, Df.containsCol, List.lookup]

/-- Witness for C4: entry index 5 against matched pools of length 3 (the
spec's boundary scenario). -/
theorem process_entry_out_of_range_witness :
    (["a.pdb", "b.pdb", "c.pdb"] : List String).length ≤ 5 ∧
    (process_entry (fun _ => "") (fun _ => []) 5 "MKV" "a" "f.faa"
        ["a.pdb", "b.pdb", "c.pdb"] ["a.csv", "b.csv", "c.csv"]).pdb = none ∧
    (process_entry (fun _ => "") (fun _ => []) 5 "MKV" "a" "f.faa"
        ["a.pdb", "b.pdb", "c.pdb"] ["a.csv", "b.csv", "c.csv"]).pTM_Score = Val.na ∧
    (process_entry (fun _ => "") (fun _ => []) 5 "MKV" "a" "f.faa"
        ["a.pdb", "b.pdb", "c.pdb"] ["a.csv", "b.csv", "c.csv"]).pLDDT_Score = Val.na := by
  have h := process_entry_out_of_range (fun _ => "") (fun _ => []) 5 "MKV" "a" "f.faa"
      ["a.pdb", "b.pdb", "c.pdb"] ["a.csv", "b.csv", "c.csv"]
  exact ⟨by decide, h.1 (by decide), (h.2 (by decide)).1, (h.2 (by decide)).2⟩

/-! ## Artifact matcher (collector.py, `_process_faa_item`)

The Python code selects files with `re.search(rf"folded_.*_{i}\.pdb$", f)`
(resp. `tmp_...csv`) and sorts the selection with
`key=lambda x: int(re.search(r"_(\d+)_\d+\.pdb$", x).group(1))`.
The selection regex holds of `f` exactly when `f` decomposes as
`a ++ "folded_" ++ b ++ "_<i>.pdb"` with `b` newline-free (`.` matches any
character except newline; `re.search` scans every start position).  The sort
regex is anchored at the end of the string, so it matches exactly when `f`
ends with `_<digits>_<digits>.pdb`, and its first group is the penultimate
digit run; `int(...)` of it is the decimal value of that run.  `\d` is
modelled as the ASCII digits (the filenames at hand are ASCII). -/

/-- Decimal digits of a natural number (rendering of a Python f-string
`{i}`), fuel-based so that it is structurally recursive. -/
def natDigitsAux : Nat → Nat → List Char
  | 0, _ => []
  | fuel + 1, n =>
      if n < 10 then [Nat.digitChar n]
      else natDigitsAux fuel (n / 10) ++ [Nat.digitChar (n % 10)]

/-- Decimal rendering of `n`. -/
def natDigits (n : Nat) : List Char := natDigitsAux (n + 1) n

/-- Decimal value of a digit string (Python `int(...)` on a digit run). -/
def natOfDigits (ds : List Char) : Nat := ds.foldl (fun a c => 10 * a + (c.toNat - 48)) 0

theorem digitChar_isDigit : ∀ n < 10, (Nat.digitChar n).isDigit = true := by decide

theorem digitChar_toNat : ∀ n < 10, (Nat.digitChar n).toNat = 48 + n := by decide

theorem natDigitsAux_all_digit : ∀ fuel n, (natDigitsAux fuel n).all Char.isDigit = true := by
  intro fuel
  induction fuel with
  | zero => intro n; rfl
  | succ fuel ih =>
      intro n
      unfold natDigitsAux
      by_cases h : n < 10
      · simp [h, digitChar_isDigit n h]
      · have : n % 10 < 10 := Nat.mod_lt _ (by omega)
        simp [h, List.all_append, ih (n / 10), digitChar_isDigit _ this]

theorem natDigits_all_digit (n : Nat) : (natDigits n).all Char.isDigit = true :=
  natDigitsAux_all_digit (n + 1) n

theorem natDigitsAux_ne_nil (fuel n : Nat) (h : 0 < fuel) : natDigitsAux fuel n ≠ [] := by
  cases fuel with
  | zero => omega
  | succ fuel =>
      unfold natDigitsAux
      by_cases h10 : n < 10 <;> simp [h10]

theorem natDigits_ne_nil (n : Nat) : natDigits n ≠ [] :=
  natDigitsAux_ne_nil (n + 1) n (by omega)

theorem natOfDigits_append_one (ds : List Char) (c : Char) :
    natOfDigits (ds ++ [c]) = 10 * natOfDigits ds + (c.toNat - 48) := by
  simp [natOfDigits, List.foldl_append]

theorem natOfDigits_natDigitsAux : ∀ fuel n, n < fuel → natOfDigits (natDigitsAux fuel n) = n := by
  intro fuel
  induction fuel with
  | zero => intro n h; omega
  | succ fuel ih =>
      intro n h
      unfold natDigitsAux
      by_cases h10 : n < 10
      · have := digitChar_toNat n h10
        simp [h10, natOfDigits, this]
      · have hdiv : n / 10 < fuel := by
          have h1 : n / 10 < n := Nat.div_lt_self (by omega) (by omega)
          omega
        have hmod : n % 10 < 10 := Nat.mod_lt _ (by omega)
        rw [if_neg h10, natOfDigits_append_one, ih (n / 10) hdiv, digitChar_toNat _ hmod]
        omega

theorem natOfDigits_natDigits (n : Nat) : natOfDigits (natDigits n) = n :=
  natOfDigits_natDigitsAux (n + 1) n (by omega)

theorem natDigits_inj {a b : Nat} (h : natDigits a = natDigits b) : a = b := by
  have ha := natOfDigits_natDigits a
  have hb := natOfDigits_natDigits b
  rw [h, hb] at ha
  omega

/-- Does `p` occur as an initial run of `l`? -/
def headMatches : List Char → List Char → Bool
  | [], _ => true
  | _ :: _, [] => false
  | p :: ps, c :: cs => p == c && headMatches ps cs

theorem headMatches_iff (p : List Char) :
    ∀ l, headMatches p l = true ↔ ∃ t, l = p ++ t := by
  induction p with
  | nil => intro l; simp [headMatches]
  | cons a p ih =>
      intro l
      cases l with
      | nil => simp [headMatches]
      | cons c cs =>
          simp only [headMatches, Bool.and_eq_true, beq_iff_eq, ih, List.cons_append,
            List.cons.injEq]
          constructor
          · rintro ⟨rfl, t, rfl⟩
            exact ⟨t, rfl, rfl⟩
          · rintro ⟨t, rfl, rfl⟩
            exact ⟨rfl, t, rfl⟩

/-- Does `l` end with `s`? -/
def endsWithL (s l : List Char) : Bool := headMatches s.reverse l.reverse

theorem endsWithL_iff (s l : List Char) : endsWithL s l = true ↔ ∃ t, l = t ++ s := by
  unfold endsWithL
  rw [headMatches_iff]
  constructor
  · rintro ⟨t, ht⟩
    refine ⟨t.reverse, ?_⟩
    have h2 := congrArg List.reverse ht
    simpa using h2
  · rintro ⟨t, rfl⟩
    exact ⟨t.reverse, by simp⟩

/-- Does `p` occur somewhere in `l` with only non-newline characters after
the occurrence?  (Models `re.search` of `p` followed by `.*` up to a fixed
end-anchored tail, `.` not matching newline.) -/
def occursThenNlFree (p : List Char) : List Char → Bool
  | [] => p.isEmpty
  | c :: cs =>
      (headMatches p (c :: cs) && ((c :: cs).drop p.length).all (fun d => d != '\n'))
        || occursThenNlFree p cs

theorem occursThenNlFree_iff (p : List Char) :
    ∀ l, occursThenNlFree p l = true ↔
      ∃ a b, l = a ++ p ++ b ∧ ∀ c ∈ b, c ≠ '\n' := by
  intro l
  induction l with
  | nil =>
      simp only [occursThenNlFree, List.isEmpty_iff]
      constructor
      · rintro rfl
        exact ⟨[], [], rfl, by simp⟩
      · rintro ⟨a, b, h, _⟩
        rcases List.append_eq_nil.mp h.symm with ⟨h1, h2⟩
        exact (List.append_eq_nil.mp h1).2
  | cons c cs ih =>
      simp only [occursThenNlFree, Bool.or_eq_true, Bool.and_eq_true, ih]
      constructor
      · rintro (⟨hm, hall⟩ | ⟨a, b, rfl, hb⟩)
        · obtain ⟨t, ht⟩ := (headMatches_iff p (c :: cs)).mp hm
          refine ⟨[], t, by simpa using ht, ?_⟩
          rw [ht, List.drop_left] at hall
          intro x hx
          have := (List.all_eq_true.mp hall) x hx
          simpa using this
        · exact ⟨c :: a, b, by simp, hb⟩
      · rintro ⟨a, b, happ, hb⟩
        cases a with
        | nil =>
            left
            simp only [List.nil_append] at happ
            constructor
            · exact (headMatches_iff p (c :: cs)).mpr ⟨b, happ⟩
            · rw [happ, List.drop_left]
              exact List.all_eq_true.mpr (fun x hx => by simpa using hb x hx)
        | cons a' as =>
            right
            simp only [List.cons_append] at happ
            injection happ with h1 h2
            exact ⟨as, b, h2, hb⟩

/-- The end-anchored literal tail `_<i>.<ext>` of the selection pattern. -/
def searchTail (i : Nat) (ext : List Char) : List Char := '_' :: (natDigits i ++ '.' :: ext)

/-- `re.search(rf"<pre>.*_{i}\.<ext>$", f)` as a Boolean: `f` ends with
`_<i>.<ext>` and `pre` occurs before that tail with no newline between. -/
def searchConv (pre : List Char) (i : Nat) (ext : List Char) (f : String) : Bool :=
  endsWithL (searchTail i ext) f.data
    && occursThenNlFree pre (f.data.take (f.data.length - (searchTail i ext).length))

theorem searchConv_iff (pre : List Char) (i : Nat) (ext : List Char) (f : String) :
    searchConv pre i ext f = true ↔
      ∃ a b, f.data = a ++ pre ++ b ++ searchTail i ext ∧ ∀ c ∈ b, c ≠ '\n' := by
  unfold searchConv
  simp only [Bool.and_eq_true, endsWithL_iff]
  constructor
  · rintro ⟨⟨t, ht⟩, hocc⟩
    rw [ht] at hocc
    have hlen : (t ++ searchTail i ext).length - (searchTail i ext).length = t.length := by
      simp
    rw [hlen, List.take_left] at hocc
    obtain ⟨a, b, rfl, hb⟩ := (occursThenNlFree_iff pre t).mp hocc
    exact ⟨a, b, by simp [ht, List.append_assoc], hb⟩
  · rintro ⟨a, b, hf, hb⟩
    have hf' : f.data = (a ++ pre ++ b) ++ searchTail i ext := by
      simp [hf, List.append_assoc]
    constructor
    · exact ⟨a ++ pre ++ b, hf'⟩
    · rw [hf']
      have hlen : ((a ++ pre ++ b) ++ searchTail i ext).length - (searchTail i ext).length
          = (a ++ pre ++ b).length := by simp; omega
      rw [hlen, List.take_left]
      exact (occursThenNlFree_iff pre (a ++ pre ++ b)).mpr ⟨a, b, rfl, hb⟩

/-- First component of the sort-key parse: strip the reversed `.<ext>` tail. -/
def stripExt (extRev : List Char) (r : List Char) : Option (List Char) :=
  if headMatches extRev r then some (r.drop extRev.length) else none

/-- Take a non-empty maximal digit run from the front. -/
def takeDigitRun (r : List Char) : Option (List Char × List Char) :=
  if (r.takeWhile Char.isDigit).isEmpty then none
  else some (r.takeWhile Char.isDigit, r.dropWhile Char.isDigit)

/-- Expect a literal underscore. -/
def expectUnderscore : List Char → Option (List Char)
  | '_' :: r => some r
  | _ => none

/-- `int(re.search(r"_(\d+)_\d+\.<ext>$", x).group(1))` as a partial
function, parsing the reversed string from the anchored end: the value of
the penultimate trailing digit run.  `none` models `re.search` returning
`None`, on which `.group(1)` raises `AttributeError`. -/
def sortKeyRev (extRev : List Char) (r : List Char) : Option Nat := do
  let r1 ← stripExt extRev r
  let (_, r2) ← takeDigitRun r1
  let r3 ← expectUnderscore r2
  let (d1, r4) ← takeDigitRun r3
  let _ ← expectUnderscore r4
  pure (natOfDigits d1.reverse)

/-- The sort key of a candidate filename. -/
def sortKey (ext : List Char) (f : String) : Option Nat :=
  sortKeyRev ('.' :: ext).reverse f.data.reverse

/-- `matching_pdb_files` / `matching_csv_files` from `_process_faa_item`:
filter the pool by the selection pattern and sort by the numeric key;
`sorted` raises (modelled as `.error ()`) as soon as the key extraction fails
on any selected file. -/
def matchingFiles (pre ext : List Char) (i : Nat) (pool : List String) :
    Except Unit (List String) :=
  if (pool.filter (fun f => searchConv pre i ext f)).all
      (fun f => (sortKey ext f).isSome) then
    .ok ((pool.filter (fun f => searchConv pre i ext f)).insertionSort
      (fun a b => (sortKey ext a).getD 0 ≤ (sortKey ext b).getD 0))
  else .error ()

theorem takeWhile_digit_run (d : List Char) (c : Char) (r : List Char)
    (hd : d.all Char.isDigit = true) (hc : Char.isDigit c = false) :
    (d ++ c :: r).takeWhile Char.isDigit = d
      ∧ (d ++ c :: r).dropWhile Char.isDigit = c :: r := by
  induction d with
  | nil => simp [List.takeWhile, List.dropWhile, hc]
  | cons a d ih =>
      simp only [List.all_cons, Bool.and_eq_true] at hd
      have := ih hd.2
      simp [List.takeWhile, List.dropWhile, hd.1, this.1, this.2]

theorem stripExt_append (extRev rest : List Char) :
    stripExt extRev (extRev ++ rest) = some rest := by
  unfold stripExt
  rw [if_pos ((headMatches_iff extRev (extRev ++ rest)).mpr ⟨rest, rfl⟩), List.drop_left]

theorem takeDigitRun_run (d : List Char) (c : Char) (r : List Char)
    (hd : d.all Char.isDigit = true) (hnil : d ≠ []) (hc : Char.isDigit c = false) :
    takeDigitRun (d ++ c :: r) = some (d, c :: r) := by
  obtain ⟨h1, h2⟩ := takeWhile_digit_run d c r hd hc
  unfold takeDigitRun
  rw [h1, h2, if_neg (by simpa [List.isEmpty_iff] using hnil)]

theorem sortKeyRev_canonical (extRev dk de rest : List Char)
    (hdk : dk.all Char.isDigit = true) (hdknil : dk ≠ [])
    (hde : de.all Char.isDigit = true) (hdenil : de ≠ []) :
    sortKeyRev extRev (extRev ++ (dk ++ '_' :: (de ++ '_' :: rest)))
        = some (natOfDigits de.reverse) := by
  have hu : Char.isDigit '_' = false := by decide
  unfold sortKeyRev
  rw [stripExt_append]
  simp only [Option.bind_eq_bind, Option.some_bind]
  rw [takeDigitRun_run dk '_' (de ++ '_' :: rest) hdk hdknil hu]
  simp only [Option.some_bind, expectUnderscore]
  rw [takeDigitRun_run de '_' rest hde hdenil hu]
  simp [expectUnderscore]

/-- A filename following the generator's naming scheme
`<pre><e>_<k>.<ext>` (e.g. `tmp_{i}_{j}.pdb` written by the folding task). -/
def canonName (pre : List Char) (e k : Nat) (ext : List Char) : String :=
  String.mk (pre ++ (natDigits e ++ '_' :: (natDigits k ++ '.' :: ext)))

theorem digit_run_before_marker {D D' x y : List Char}
    (hD : D.all Char.isDigit = true) (hD' : D'.all Char.isDigit = true)
    (h : x ++ '_' :: D = y ++ '_' :: D') : D = D' := by
  have h1 : D.reverse ++ '_' :: x.reverse = D'.reverse ++ '_' :: y.reverse := by
    have h2 := congrArg List.reverse h
    simpa [List.append_assoc] using h2
  have hDrev : D.reverse.all Char.isDigit = true := by
    rw [List.all_eq_true] at hD ⊢
    intro c hc
    exact hD c (List.mem_reverse.mp hc)
  have hD'rev : D'.reverse.all Char.isDigit = true := by
    rw [List.all_eq_true] at hD' ⊢
    intro c hc
    exact hD' c (List.mem_reverse.mp hc)
  have t1 := (takeWhile_digit_run D.reverse '_' x.reverse hDrev (by decide)).1
  have t2 := (takeWhile_digit_run D'.reverse '_' y.reverse hD'rev (by decide)).1
  rw [h1, t2] at t1
  have := congrArg List.reverse t1
  simpa using this.symm

theorem natDigits_nl_free (n : Nat) : ∀ c ∈ natDigits n, c ≠ '\n' := by
  intro c hc hceq
  have := List.all_eq_true.mp (natDigits_all_digit n) c hc
  rw [hceq] at this
  exact absurd this (by decide)

theorem searchConv_canon (pre ext : List Char) (i e k : Nat) :
    searchConv pre i ext (canonName pre e k ext) = true ↔ k = i := by
  rw [searchConv_iff]
  have hdata : (canonName pre e k ext).data
      = pre ++ (natDigits e ++ '_' :: (natDigits k ++ '.' :: ext)) := rfl
  constructor
  · rintro ⟨a, b, hf, hb⟩
    rw [hdata] at hf
    have hcancel : (a ++ pre ++ b) ++ '_' :: natDigits i
        = (pre ++ natDigits e) ++ '_' :: natDigits k := by
      have hfull : ((a ++ pre ++ b) ++ '_' :: natDigits i) ++ ('.' :: ext)
          = ((pre ++ natDigits e) ++ '_' :: natDigits k) ++ ('.' :: ext) := by
        simp only [searchTail] at hf
        simp only [List.append_assoc, List.cons_append]
        simpa [List.append_assoc] using hf.symm
      exact List.append_cancel_right hfull
    have hik := digit_run_before_marker (natDigits_all_digit i) (natDigits_all_digit k)
      hcancel
    exact (natDigits_inj hik).symm
  · rintro rfl
    refine ⟨[], natDigits e, ?_, natDigits_nl_free e⟩
    rw [hdata]
    simp [searchTail, List.append_assoc]

theorem sortKey_canon (q ext : List Char) (e k : Nat) :
    sortKey ext (canonName (q ++ ['_']) e k ext) = some e := by
  have hdata : (canonName (q ++ ['_']) e k ext).data.reverse
      = ('.' :: ext).reverse
          ++ ((natDigits k).reverse ++ '_' :: ((natDigits e).reverse ++ '_' :: q.reverse)) := by
    show ((q ++ ['_']) ++ (natDigits e ++ '_' :: (natDigits k ++ '.' :: ext))).reverse = _
    simp [List.append_assoc]
  have hkall : (natDigits k).reverse.all Char.isDigit = true := by
    rw [List.all_eq_true]
    intro c hc
    exact List.all_eq_true.mp (natDigits_all_digit k) c (List.mem_reverse.mp hc)
  have heall : (natDigits e).reverse.all Char.isDigit = true := by
    rw [List.all_eq_true]
    intro c hc
    exact List.all_eq_true.mp (natDigits_all_digit e) c (List.mem_reverse.mp hc)
  have hknil : (natDigits k).reverse ≠ [] := by
    simp [List.reverse_eq_nil_iff, natDigits_ne_nil k]
  have henil : (natDigits e).reverse ≠ [] := by
    simp [List.reverse_eq_nil_iff, natDigits_ne_nil e]
  unfold sortKey
  rw [hdata, sortKeyRev_canonical _ _ _ _ hkall hknil heall henil]
  simp [natOfDigits_natDigits]

theorem filter_canon_pool (pre ext : List Char) (i : Nat) (pool : List (Nat × Nat)) :
    (pool.map (fun p => canonName pre p.1 p.2 ext)).filter
        (fun f => searchConv pre i ext f)
      = (pool.filter (fun p => p.2 == i)).map (fun p => canonName pre p.1 i ext) := by
  induction pool with
  | nil => rfl
  | cons p pool ih =>
      by_cases hpi : p.2 = i
      · have ht : searchConv pre i ext (canonName pre p.1 p.2 ext) = true :=
          (searchConv_canon pre ext i p.1 p.2).mpr hpi
        rw [hpi] at ht
        simp [List.filter_cons, ht, hpi, ih]
      · have hf : searchConv pre i ext (canonName pre p.1 p.2 ext) = false := by
          rw [Bool.eq_false_iff]
          intro hc
          exact hpi ((searchConv_canon pre ext i p.1 p.2).mp hc)
        simp [List.filter_cons, hf, hpi, ih]

/-- `_process_faa_item` from collector.py: load the FASTA entries, return
`[]` for an empty file, otherwise match both artifact pools for file index
`i` and build one Result Row per entry (the parallel `mp_calc` map is
order-preserving).  An exception from the sort-key extraction propagates. -/
def process_faa_item (loadFasta : String → List String × List String)
    (readPdb : String → String) (readCsv : String → Df)
    (pdb_files csv_files : List String) (i : Nat) (faa_file : String) :
    Except Unit (List ResultRow) := do
  let ed := loadFasta faa_file
  if ed.1.isEmpty then pure []
  else do
    let mp ← matchingFiles "folded_".data "pdb".data i pdb_files
    let mc ← matchingFiles "tmp_".data "csv".data i csv_files
    pure (((ed.1.zip ed.2).enum).map
      (fun x => process_entry readPdb readCsv x.1 x.2.1 x.2.2 faa_file mp mc))

/-- The `__main__` block of collector.py after the directory scan: check the
global pool-size precondition, then process every FAA file and flatten the
rows.  The mismatch check runs before any per-entry processing, so on
mismatch no Result Row is ever assembled. -/
def collector_main (loadFasta : String → List String × List String)
    (readPdb : String → String) (readCsv : String → Df)
    (pdb_files csv_files faa_files : List String) :
    Except String (List ResultRow) :=
  if pdb_files.length ≠ csv_files.length then
    .error "Mismatched number of PDB and CSV files"
  else
    match (faa_files.enum).mapM
        (fun x => process_faa_item loadFasta readPdb readCsv pdb_files csv_files
          x.1 x.2) with
    | .error _ => .error "sort key extraction failed"
    | .ok rss => .ok rss.flatten

/-- C5: whenever the total number of structure files differs from the total
number of score files, the collector fails with the fatal mismatch error
(raised before any per-entry processing), and its result contains no Result
Row. -/
theorem collector_pool_mismatch_fatal
    (loadFasta : String → List String × List String)
    (readPdb : String → String) (readCsv : String → Df)
    (pdb_files csv_files faa_files : List String)
    (h : pdb_files.length ≠ csv_files.length) :
    collector_main loadFasta readPdb readCsv pdb_files csv_files faa_files
      = .error "Mismatched number of PDB and CSV files" := by
  simp [collector_main, h]

/-- Witness for C5: 3 structure files versus 2 score files (the spec's
scenario). -/
theorem collector_pool_mismatch_witness :
    (["a.pdb", "b.pdb", "c.pdb"] : List String).length
        ≠ (["a.csv", "b.csv"] : List String).length ∧
    collector_main (fun _ => ([], [])) (fun _ => "") (fun _ => [])
        ["a.pdb", "b.pdb", "c.pdb"] ["a.csv", "b.csv"] ["f.faa"]
      = .error "Mismatched number of PDB and CSV files" :=
  ⟨by decide,
   collector_pool_mismatch_fatal (fun _ => ([], [])) (fun _ => "") (fun _ => [])
      ["a.pdb", "b.pdb", "c.pdb"] ["a.csv", "b.csv"] ["f.faa"] (by decide)⟩

/-- C10: on the candidate `folded_abc_3.pdb` with file index 3 the selection
pattern matches, but the sort-key regex finds no two trailing numeric tokens,
so the key extraction fails and the matcher raises (models
`AttributeError: NoneType has no attribute group`) instead of recording an
absent artifact; the exception propagates out of `_process_faa_item`. -/
theorem matcher_sort_key_raises :
    searchConv "folded_".data 3 "pdb".data "folded_abc_3.pdb" = true ∧
    sortKey "pdb".data "folded_abc_3.pdb" = none ∧
    matchingFiles "folded_".data "pdb".data 3 ["folded_abc_3.pdb"] = .error () ∧
    process_faa_item (fun _ => (["MKV"], ["a"])) (fun _ => "") (fun _ => [])
        ["folded_abc_3.pdb"] [] 3 "f.faa" = .error () :=
  ⟨rfl, rfl, rfl, rfl⟩

/-- Modelled from the claim's filename convention
`_<fileIndex>_<entryIndex>.<ext>` for C7: parse the two trailing
underscore-separated numeric tokens of the filename and read the FIRST as
the file index and the SECOND (final) as the per-entry index. -/
def claimConvIndices (ext : List Char) (f : String) : Option (Nat × Nat) := do
  let r1 ← stripExt ('.' :: ext).reverse f.data.reverse
  let (dLast, r2) ← takeDigitRun r1
  let r3 ← expectUnderscore r2
  let (dPrev, r4) ← takeDigitRun r3
  let _ ← expectUnderscore r4
  pure (natOfDigits dPrev.reverse, natOfDigits dLast.reverse)

/-- C7 counterexample: under the claim's convention
`_<fileIndex>_<entryIndex>.<ext>`, both `folded_7_1.pdb` and
`folded_7_2.pdb` carry file index 7 and should be the selected, entry-ordered
subset for i = 7 — but the matcher selects neither (it requires i to be the
FINAL numeric token), returning the empty selection. -/
theorem matcher_convention_counterexample :
    claimConvIndices "pdb".data "folded_7_1.pdb" = some (7, 1) ∧
    claimConvIndices "pdb".data "folded_7_2.pdb" = some (7, 2) ∧
    matchingFiles "folded_".data "pdb".data 7 ["folded_7_1.pdb", "folded_7_2.pdb"]
      = .ok [] :=
  ⟨rfl, rfl, rfl⟩

/-- C7 (amended): for a pool of generator-convention filenames
`folded_<e>_<k>.pdb`, the matcher selects exactly those with the file index
`i` as the FINAL numeric token (suffix convention
`_<entryIndex>_<fileIndex>.<ext>`), and returns them ordered by the
per-entry numeric token, which appears immediately BEFORE the file index. -/
theorem matcher_selects_and_sorts (i : Nat) (pool : List (Nat × Nat)) :
    ∃ l, matchingFiles "folded_".data "pdb".data i
          (pool.map (fun p => canonName "folded_".data p.1 p.2 "pdb".data)) = .ok l ∧
      l.Perm ((pool.filter (fun p => p.2 == i)).map
          (fun p => canonName "folded_".data p.1 i "pdb".data)) ∧
      List.Pairwise
        (fun f g => (sortKey "pdb".data f).getD 0 ≤ (sortKey "pdb".data g).getD 0) l ∧
      ∀ p ∈ pool,
        sortKey "pdb".data (canonName "folded_".data p.1 p.2 "pdb".data) = some p.1 := by
  have hfold : ("folded_".data : List Char) = "folded".data ++ ['_'] := by decide
  have hkeys : ∀ p : Nat × Nat,
      sortKey "pdb".data (canonName "folded_".data p.1 p.2 "pdb".data) = some p.1 := by
    intro p
    rw [hfold, sortKey_canon]
  have hsel := filter_canon_pool "folded_".data "pdb".data i pool
  have hall : ((pool.filter (fun p => p.2 == i)).map
      (fun p => canonName "folded_".data p.1 i "pdb".data)).all
        (fun f => (sortKey "pdb".data f).isSome) = true := by
    rw [List.all_eq_true]
    intro f hf
    obtain ⟨p, hp, rfl⟩ := List.mem_map.mp hf
    rw [hfold, sortKey_canon]
    rfl
  haveI hTot : IsTotal String
      (fun f g => (sortKey "pdb".data f).getD 0 ≤ (sortKey "pdb".data g).getD 0) :=
    ⟨fun a b => Nat.le_total _ _⟩
  haveI hTrans : IsTrans String
      (fun f g => (sortKey "pdb".data f).getD 0 ≤ (sortKey "pdb".data g).getD 0) :=
    ⟨fun a b c hab hbc => Nat.le_trans hab hbc⟩
  have hmain : matchingFiles "folded_".data "pdb".data i
        (pool.map (fun p => canonName "folded_".data p.1 p.2 "pdb".data))
      = .ok (((pool.filter (fun p => p.2 == i)).map
            (fun p => canonName "folded_".data p.1 i "pdb".data)).insertionSort
          (fun f g => (sortKey "pdb".data f).getD 0 ≤ (sortKey "pdb".data g).getD 0)) := by
    unfold matchingFiles
    rw [hsel, if_pos hall]
  refine ⟨_, hmain, ?_, ?_, fun p _ => hkeys p⟩
  · exact List.perm_insertionSort _ _
  · have hs := List.sorted_insertionSort
      (fun f g => (sortKey "pdb".data f).getD 0 ≤ (sortKey "pdb".data g).getD 0)
      ((pool.filter (fun p => p.2 == i)).map
        (fun p => canonName "folded_".data p.1 i "pdb".data))
    exact hs

/-! ## Shared append log record format (run_fold_parallel.py `__main__`) -/

/-- The f-string building `out_str`: the seven fields (file, description,
entry, pTM, pLDDT array text, mean pLDDT, PDB text — numeric values already
rendered to strings by the f-string) joined with `;;; ` and terminated with
` ~~~` plus newline. -/
def out_str (file description entry ptm plddt_arr plddt_mean pdb_str : String) : String :=
  file ++ ";;; " ++ description ++ ";;; " ++ entry ++ ";;; " ++ ptm ++ ";;; "
    ++ plddt_arr ++ ";;; " ++ plddt_mean ++ ";;; " ++ pdb_str ++ " ~~~\n"

/-- Interpose a separator between fields. -/
def joinSep (sep : String) : List String → String
  | [] => ""
  | [x] => x
  | x :: y :: tl => x ++ sep ++ joinSep sep (y :: tl)

theorem string_append_assoc (a b c : String) : a ++ b ++ c = a ++ (b ++ c) := by
  cases a
  cases b
  cases c
  show String.mk _ = String.mk _
  simp [String.append, List.append_assoc]

/-- C8: every record written to the shared log is a single string whose
seven fields are joined by the `;;;` separator (each boundary is the literal
`;;; `), and which is terminated by the literal ` ~~~` marker followed
immediately by a newline. -/
theorem shared_log_record_format (file description entry ptm plddt_arr plddt_mean
    pdb_str : String) :
    out_str file description entry ptm plddt_arr plddt_mean pdb_str
        = joinSep ";;; "
            [file, description, entry, ptm, plddt_arr, plddt_mean, pdb_str]
          ++ " ~~~\n" ∧
    ∃ body, out_str file description entry ptm plddt_arr plddt_mean pdb_str
        = body ++ " ~~~\n" := by
  constructor
  · simp only [out_str, joinSep, string_append_assoc]
  · exact ⟨_, rfl⟩

/-! ## Shared append log concurrency (`write_to_shared_file`)

`write_to_shared_file` opens the shared file in append mode, takes
`fcntl.flock(f, LOCK_EX)`, performs one `f.write(message)`, and releases with
`LOCK_UN`.  The model: each of the N array-task processes runs the program
acquire-lock / write message / release-lock against one shared file.  The OS
contract of the exclusive advisory lock is the `lock` field: `acquire` only
fires when no process holds it, and a write step requires holding it.  To
make the mutual exclusion load-bearing the write is decomposed into
character-sized appends (nothing in the model makes one `write` call atomic
by fiat); the theorem shows the lock discipline alone forbids interleaving. -/

/-- Program counter of one writer process. -/
inductive PC where
  | start : PC
  | writing (rem : List Char) : PC
  | done : PC
deriving DecidableEq

/-- Global state: per-process program counters, the lock holder, and the
shared file contents. -/
structure LogSys where
  pcs : List PC
  lock : Option Nat
  file : List Char
deriving DecidableEq

/-- Interleaving semantics of N processes each running
`flock(LOCK_EX); write(msgs[p]); flock(LOCK_UN)` on one shared file. -/
inductive LogStep (msgs : List (List Char)) : LogSys → LogSys → Prop where
  | acquire (s : LogSys) (p : Nat)
      (hp : s.pcs.get? p = some .start) (hl : s.lock = none) :
      LogStep msgs s ⟨s.pcs.set p (.writing (msgs.getD p [])), some p, s.file⟩
  | wr (s : LogSys) (p : Nat) (c : Char) (rest : List Char)
      (hp : s.pcs.get? p = some (.writing (c :: rest))) (hl : s.lock = some p) :
      LogStep msgs s ⟨s.pcs.set p (.writing rest), some p, s.file ++ [c]⟩
  | release (s : LogSys) (p : Nat)
      (hp : s.pcs.get? p = some (.writing [])) (hl : s.lock = some p) :
      LogStep msgs s ⟨s.pcs.set p .done, none, s.file⟩

/-- Initial state: all processes at start, lock free, file empty. -/
def logInit (n : Nat) : LogSys := ⟨List.replicate n .start, none, []⟩

/-- Concatenation of whole messages in a given completion order. -/
def joinMsgs (msgs : List (List Char)) (order : List Nat) : List Char :=
  (order.map (fun p => msgs.getD p [])).flatten

theorem joinMsgs_append_one (msgs : List (List Char)) (order : List Nat) (p : Nat) :
    joinMsgs msgs (order ++ [p]) = joinMsgs msgs order ++ msgs.getD p [] := by
  simp [joinMsgs]

theorem get?_set_self {α : Type} (l : List α) (i : Nat) (a : α) (h : i < l.length) :
    (l.set i a).get? i = some a := by
  induction l generalizing i with
  | nil => simp at h
  | cons x l ih =>
      cases i with
      | zero => rfl
      | succ i => exact ih i (by simpa using h)

theorem get?_set_other {α : Type} (l : List α) (i j : Nat) (a : α) (h : i ≠ j) :
    (l.set i a).get? j = l.get? j := by
  induction l generalizing i j with
  | nil => simp
  | cons x l ih =>
      cases i with
      | zero =>
          cases j with
          | zero => exact absurd rfl h
          | succ j => rfl
      | succ i =>
          cases j with
          | zero => rfl
          | succ j => exact ih i j (by omega)

theorem get?_some_lt {α : Type} {l : List α} {p : Nat} {x : α}
    (h : l.get? p = some x) : p < l.length := by
  induction l generalizing p with
  | nil => simp [List.get?] at h
  | cons y l ih =>
      cases p with
      | zero => simp
      | succ p =>
          have h' : l.get? p = some x := by simpa [List.get?] using h
          have := ih h'
          simpa using Nat.succ_lt_succ this

/-- Run invariant: the file always consists of the whole messages of the
finished processes, in their completion order, followed by the
already-written part of the current lock holder's message (if any). -/
def LogInv (msgs : List (List Char)) (s : LogSys) : Prop :=
  s.pcs.length = msgs.length ∧
  ∃ order : List Nat, order.Nodup
    ∧ (∀ p, p ∈ order ↔ s.pcs.get? p = some .done)
    ∧ ((s.lock = none
          ∧ (∀ p pc, s.pcs.get? p = some pc → pc = .start ∨ pc = .done)
          ∧ s.file = joinMsgs msgs order)
      ∨ (∃ hold w rem, s.lock = some hold
          ∧ s.pcs.get? hold = some (.writing rem)
          ∧ msgs.getD hold [] = w ++ rem
          ∧ s.file = joinMsgs msgs order ++ w
          ∧ (∀ p pc, p ≠ hold → s.pcs.get? p = some pc → pc = .start ∨ pc = .done)))

theorem logInv_init (msgs : List (List Char)) : LogInv msgs (logInit msgs.length) := by
  refine ⟨by simp [logInit], [], List.nodup_nil, ?_, Or.inl ⟨rfl, ?_, rfl⟩⟩
  · intro p
    simp only [List.not_mem_nil, false_iff, logInit]
    intro heq
    have hmem := List.get?_mem heq
    have := (List.mem_replicate.mp hmem).2
    exact absurd this (by decide)
  · intro p pc hpc
    have hmem := List.get?_mem (by simpa [logInit] using hpc)
    exact Or.inl (List.mem_replicate.mp hmem).2

theorem logInv_step {msgs : List (List Char)} {s t : LogSys}
    (hinv : LogInv msgs s) (hstep : LogStep msgs s t) : LogInv msgs t := by
  obtain ⟨hlen, order, hnd, hmem, hcases⟩ := hinv
  cases hstep with
  | acquire p hp hl =>
      rcases hcases with ⟨hlock, hall, hfile⟩ | ⟨hold, w, rem, hlock, _⟩
      · have hplt : p < s.pcs.length := get?_some_lt hp
        refine ⟨by simpa using hlen, order, hnd, ?_,
          Or.inr ⟨p, [], msgs.getD p [], rfl, get?_set_self _ _ _ hplt, by simp,
            by simpa using hfile, ?_⟩⟩
        · intro q
          by_cases hq : q = p
          · subst hq
            rw [get?_set_self _ _ _ hplt]
            constructor
            · intro hin
              rw [hmem q, hp] at hin
              exact absurd hin (by simp)
            · intro heq
              exact absurd heq (by simp)
          · rw [get?_set_other _ _ _ _ (fun hpq => hq hpq.symm)]
            exact hmem q
        · intro q pc hq hqc
          rw [get?_set_other _ _ _ _ (fun hpq => hq hpq.symm)] at hqc
          exact hall q pc hqc
      · rw [hl] at hlock
        exact absurd hlock (by simp)
  | wr p c rest hp hl =>
      rcases hcases with ⟨hlock, _⟩ | ⟨hold, w, rem, hlock, hph, hmsg, hfile, hothers⟩
      · rw [hl] at hlock
        exact absurd hlock (by simp)
      · rw [hl] at hlock
        injection hlock with hpq
        subst hpq
        rw [hp] at hph
        injection hph with h1
        injection h1 with h2
        subst h2
        have hplt : p < s.pcs.length := get?_some_lt hp
        refine ⟨by simpa using hlen, order, hnd, ?_,
          Or.inr ⟨p, w ++ [c], rest, rfl, get?_set_self _ _ _ hplt,
            by rw [hmsg]; simp, by rw [hfile]; simp, ?_⟩⟩
        · intro q
          by_cases hq : q = p
          · subst hq
            rw [get?_set_self _ _ _ hplt]
            constructor
            · intro hin
              rw [hmem q, hp] at hin
              exact absurd hin (by simp)
            · intro heq
              exact absurd heq (by simp)
          · rw [get?_set_other _ _ _ _ (fun hpq => hq hpq.symm)]
            exact hmem q
        · intro q pc hq hqc
          rw [get?_set_other _ _ _ _ (fun hpq => hq hpq.symm)] at hqc
          exact hothers q pc hq hqc
  | release p hp hl =>
      rcases hcases with ⟨hlock, _⟩ | ⟨hold, w, rem, hlock, hph, hmsg, hfile, hothers⟩
      · rw [hl] at hlock
        exact absurd hlock (by simp)
      · rw [hl] at hlock
        injection hlock with hpq
        subst hpq
        rw [hp] at hph
        injection hph with h1
        injection h1 with h2
        subst h2
        have hplt : p < s.pcs.length := get?_some_lt hp
        have hpnotin : p ∉ order := by
          intro hin
          rw [hmem p, hp] at hin
          exact absurd hin (by simp)
        have hnd' : (order ++ [p]).Nodup := by
          rw [List.nodup_append]
          refine ⟨hnd, List.nodup_singleton p, ?_⟩
          intro a ha hap
          rw [List.mem_singleton] at hap
          subst hap
          exact hpnotin ha
        refine ⟨by simpa using hlen, order ++ [p], hnd', ?_, Or.inl ⟨rfl, ?_, ?_⟩⟩
        · intro q
          by_cases hq : q = p
          · subst hq
            rw [get?_set_self _ _ _ hplt]
            simp
          · rw [get?_set_other _ _ _ _ (fun hpq => hq hpq.symm)]
            rw [List.mem_append, List.mem_singleton]
            simp only [hq, or_false]
            exact hmem q
        · intro q pc hqc
          by_cases hq : q = p
          · subst hq
            rw [get?_set_self _ _ _ hplt] at hqc
            injection hqc with h1
            exact Or.inr h1.symm
          · rw [get?_set_other _ _ _ _ (fun hpq => hq hpq.symm)] at hqc
            exact hothers q pc hq hqc
        · rw [joinMsgs_append_one, hfile, hmsg]
          simp

theorem logInv_reachable (msgs : List (List Char)) (s : LogSys)
    (h : Relation.ReflTransGen (LogStep msgs) (logInit msgs.length) s) :
    LogInv msgs s := by
  induction h with
  | refl => exact logInv_init msgs
  | tail _ hbc ih => exact logInv_step ih hbc

/-- C9: when the N writer processes all run `write_to_shared_file` once under
the exclusive-lock discipline and all terminate, the shared file is exactly a
concatenation of the N whole messages, one per process, in some order: no
partial records interleave, every record appears exactly once, and the total
record count is N.  The lock acquisition before the write and the release
after it are the `acquire`/`release` rules of the step relation. -/
theorem shared_append_log_no_interleaving (msgs : List (List Char)) (s : LogSys)
    (hre : Relation.ReflTransGen (LogStep msgs) (logInit msgs.length) s)
    (hdone : ∀ p < msgs.length, s.pcs.get? p = some .done) :
    ∃ order : List Nat, order.Perm (List.range msgs.length)
      ∧ s.file = joinMsgs msgs order := by
  obtain ⟨hlen, order, hnd, hmem, hcases⟩ := logInv_reachable msgs s hre
  have hfile : s.file = joinMsgs msgs order := by
    rcases hcases with ⟨_, _, hfile⟩ | ⟨hold, w, rem, _, hph, _⟩
    · exact hfile
    · have hlt : hold < s.pcs.length := get?_some_lt hph
      have hd := hdone hold (by omega)
      rw [hph] at hd
      injection hd with h1
      exact absurd h1 (by simp)
  refine ⟨order, ?_, hfile⟩
  rw [List.perm_ext_iff_of_nodup hnd (List.nodup_range _)]
  intro q
  rw [List.mem_range, hmem q]
  constructor
  · intro hq
    have := get?_some_lt hq
    omega
  · intro hq
    exact hdone q hq

/-- Witness for C9: a single process appends the message `a`; the terminal
state of the concrete three-step execution satisfies the theorem. -/
theorem shared_append_log_witness :
    (∀ p < ([['a']] : List (List Char)).length,
        (⟨[PC.done], none, ['a']⟩ : LogSys).pcs.get? p = some .done) ∧
    ∃ order : List Nat, order.Perm (List.range ([['a']] : List (List Char)).length)
      ∧ (⟨[PC.done], none, ['a']⟩ : LogSys).file = joinMsgs [['a']] order := by
  have hstep1 : LogStep [['a']] (logInit 1) ⟨[PC.writing ['a']], some 0, []⟩ :=
    LogStep.acquire (logInit 1) 0 rfl rfl
  have hstep2 : LogStep [['a']] ⟨[PC.writing ['a']], some 0, []⟩
      ⟨[PC.writing []], some 0, ['a']⟩ :=
    LogStep.wr _ 0 'a' [] rfl rfl
  have hstep3 : LogStep [['a']] ⟨[PC.writing []], some 0, ['a']⟩
      ⟨[PC.done], none, ['a']⟩ :=
    LogStep.release _ 0 rfl rfl
  have hre : Relation.ReflTransGen (LogStep [['a']]) (logInit 1)
      ⟨[PC.done], none, ['a']⟩ :=
    Relation.ReflTransGen.head hstep1 (Relation.ReflTransGen.head hstep2
      (Relation.ReflTransGen.single hstep3))
  have hdone : ∀ p < ([['a']] : List (List Char)).length,
      (⟨[PC.done], none, ['a']⟩ : LogSys).pcs.get? p = some .done := by decide
  exact ⟨hdone, shared_append_log_no_interleaving [['a']] _ hre hdone⟩

end EsmFold
